import Mathlib

/-!
Verification of the `SourceMap` module of LuaPanda (src/src/debug/SourceMap.ts).

The TypeScript source is shallowly embedded below.  JavaScript numbers are
modelled as exact integers (`Int`); the 32-bit bitwise operations that the
code uses (`<<`, `&`, `>>>`) are modelled explicitly with `% 2^32`
conversions.  Strings are modelled as `List Char`; `String.split` is modelled
by `splitOnChar`, which agrees with the JavaScript behaviour for one-character
separators.  The tstl `TreeMap` (a TypeScript port of C++ `std::map`) is
modelled as a key-sorted association list; its `insert` keeps the existing
entry when the key is already present, exactly like `std::map::insert`.
Thrown exceptions are modelled with `Option` / explicit `thrown` outcomes.
-/

/-- JavaScript ToUint32: reduce an exact integer to its value mod 2^32. -/
def toUint32 (x : Int) : Int := x % 4294967296

/-- JavaScript ToInt32: reduce an exact integer to the signed 32-bit range. -/
def toInt32 (x : Int) : Int :=
  let r := x % 4294967296
  if r < 2147483648 then r else r - 4294967296

/-- JavaScript `p << shift` for a payload `p` (0 ≤ p ≤ 31): the shift count is
taken mod 32 and the result is a signed 32-bit value. -/
def jsShl31 (p : Nat) (shift : Nat) : Int := toInt32 ((p : Int) * 2 ^ (shift % 32))

/-- JavaScript `v & 1`: bit 0 of the 32-bit truncation of `v`. -/
def jsAnd1 (v : Int) : Int := toUint32 v % 2

/-- JavaScript `v >>> 1`: unsigned 32-bit truncation of `v`, shifted right. -/
def jsShrU1 (v : Int) : Int := toUint32 v / 2

/-- The 65-symbol alphabet of the VLQ decoder
(`'ABCDEFGHIJKLMNOPQRSTUVWXYZabcdefghijklmnopqrstuvwxyz0123456789+/='`). -/
def alphabetChars : List Char :=
  "ABCDEFGHIJKLMNOPQRSTUVWXYZabcdefghijklmnopqrstuvwxyz0123456789+/=".toList

def charToIntegerAux : List Char → Nat → Char → Option Nat
  | [], _, _ => none
  | a :: as, i, c => if a = c then some i else charToIntegerAux as (i + 1) c

/-- `charToInteger` of SourceMap.ts: position of a character in the alphabet,
`none` when the character is outside the alphabet (the code then throws). -/
def charToInteger (c : Char) : Option Nat := charToIntegerAux alphabetChars 0 c

/-- The completion step of `decode`: `shouldNegate = value & 1`,
`value >>>= 1`, and the push of `value === 0 ? -0x80000000 : -value` or
`value`. -/
def finalizeValue (v : Int) : Int :=
  let sn := jsAnd1 v
  let u := jsShrU1 v
  if sn ≠ 0 then (if u = 0 then -2147483648 else -u) else u

/-- The loop of `decode` (SourceMap.ts lines 235-275), carrying the running
`shift` and `value`; `none` models the thrown `Invalid character` error. -/
def decodeAux : List Char → Nat → Int → Option (List Int)
  | [], _, _ => some []
  | c :: rest, shift, value =>
    match charToInteger c with
    | none => none
    | some i =>
      let v := value + jsShl31 (i % 32) shift
      if i / 32 % 2 = 1 then
        decodeAux rest (shift + 5) v
      else
        (decodeAux rest 0 0).map (fun r => finalizeValue v :: r)

/-- `decode` of SourceMap.ts: VLQ-decode a segment string. -/
def decode (s : List Char) : Option (List Int) := decodeAux s 0 0

/-- JavaScript `String.prototype.split` with a one-character separator. -/
def splitOnChar (sep : Char) : List Char → List (List Char)
  | [] => [[]]
  | c :: rest =>
    let r := splitOnChar sep rest
    if c = sep then [] :: r
    else
      match r with
      | [] => [[c]]
      | g :: gs => (c :: g) :: gs

/-- `SourceLineMapping` of SourceMap.ts. -/
structure SourceLineMapping where
  sourceIndex : Int
  sourceLine : Int
  sourceColumn : Int
deriving DecidableEq, Repr

/-- Lookup in the `sourceMap` object (indexing `sourceMap[line]`). -/
def lmGet : List (Int × SourceLineMapping) → Int → Option SourceLineMapping
  | [], _ => none
  | (a, b) :: r, k => if a = k then some b else lmGet r k

/-- Property write `sourceMap[line] = v` on the `sourceMap` object. -/
def lmSet : List (Int × SourceLineMapping) → Int → SourceLineMapping →
    List (Int × SourceLineMapping)
  | [], k, v => [(k, v)]
  | (a, b) :: r, k, v => if a = k then (a, v) :: r else (a, b) :: lmSet r k v

/-- The comparison of `build` (lines 301-302): the candidate position is
lexicographically smaller, `sourceLine` compared first and `sourceColumn` as
the tie-break. -/
def slmLt (a b : SourceLineMapping) : Prop :=
  a.sourceLine < b.sourceLine ∨
    (a.sourceLine = b.sourceLine ∧ a.sourceColumn < b.sourceColumn)

instance (a b : SourceLineMapping) : Decidable (slmLt a b) := by
  unfold slmLt; infer_instance

/-- The conditional update of `sourceMap[line]` in `build` (lines 299-305):
store the candidate when no mapping is present yet, or when the candidate is
lexicographically smaller in `(sourceLine, sourceColumn)`. -/
def lmCand (l : List (Int × SourceLineMapping)) (k : Int) (v : SourceLineMapping) :
    List (Int × SourceLineMapping) :=
  match lmGet l k with
  | none => lmSet l k v
  | some m => if slmLt v m then lmSet l k v else l

/-- tstl `TreeMap.insert(make_pair(k, v))` on a key-sorted association list:
C++ `std::map::insert` semantics, the existing entry is kept when the key is
already present. -/
def tmInsert (k v : Int) : List (Int × Int) → List (Int × Int)
  | [] => [(k, v)]
  | (a, b) :: r =>
    if k < a then (k, v) :: (a, b) :: r
    else if k = a then (a, b) :: r
    else (a, b) :: tmInsert k v r

/-- tstl `TreeMap` key lookup. -/
def tmLookup : List (Int × Int) → Int → Option Int
  | [], _ => none
  | (a, b) :: r, k => if a = k then some b else tmLookup r k

/-- tstl `TreeMap.lower_bound(k)`: the first entry with key ≥ `k`
(`none` models the `end()` iterator). -/
def lowerBound : List (Int × Int) → Int → Option (Int × Int)
  | [], _ => none
  | (a, b) :: r, k => if k ≤ a then some (a, b) else lowerBound r k

/-- The running state of `build` (lines 281-312): the `line`, `sourceIndex`,
`sourceLine`, `sourceColumn` running totals, the `sourceMap` line mappings and
the `tsFileLines` tree map. -/
structure BuildState where
  line : Int
  sourceIndex : Int
  sourceLine : Int
  sourceColumn : Int
  lineMappings : List (Int × SourceLineMapping)
  tsFileLines : List (Int × Int)
deriving DecidableEq, Repr

/-- The initial state of `build`: `line = 1`, `sourceIndex = 0`,
`sourceLine = 1`, `sourceColumn = 1`, empty maps. -/
def initBuildState : BuildState := ⟨1, 0, 1, 1, [], []⟩

/-- The body of the inner loop of `build` for one column segment:
decode, add `offsets[1] || 0`, `offsets[2] || 0`, `offsets[3] || 0` to the
running totals, update `sourceMap[line]` and insert into `tsFileLines`.
`none` models the propagating decode exception. -/
def processSegment (st : BuildState) (seg : List Char) : Option BuildState :=
  (decode seg).map fun offsets =>
    let si := st.sourceIndex + offsets.getD 1 0
    let sl := st.sourceLine + offsets.getD 2 0
    let sc := st.sourceColumn + offsets.getD 3 0
    { line := st.line, sourceIndex := si, sourceLine := sl, sourceColumn := sc,
      lineMappings := lmCand st.lineMappings st.line ⟨si, sl, sc⟩,
      tsFileLines := tmInsert sl st.line st.tsFileLines }

/-- Folds `processSegment` over the column segments of one row. -/
def processSegments : BuildState → List (List Char) → Option BuildState
  | st, [] => some st
  | st, s :: rest =>
    match processSegment st s with
    | none => none
    | some st2 => processSegments st2 rest

/-- The body of the outer loop of `build` for one row: rows of positive
length are split on `,` and processed; `line` is incremented in every case. -/
def processRow (st : BuildState) (row : List Char) : Option BuildState :=
  (if row.length > 0 then processSegments st (splitOnChar ',' row) else some st).map
    fun st2 => { st2 with line := st2.line + 1 }

/-- Folds `processRow` over all rows. -/
def buildRows : BuildState → List (List Char) → Option BuildState
  | st, [] => some st
  | st, r :: rs =>
    match processRow st r with
    | none => none
    | some st2 => buildRows st2 rs

/-- `build` of SourceMap.ts (lines 281-312): split the mappings string on
`;` and process every row; `none` models the propagating decode exception. -/
def build (mappings : List Char) : Option BuildState :=
  buildRows initBuildState (splitOnChar ';' mappings)

/-- `build` instrumented with a ghost trace: together with the final state it
records, for every processed column segment, the quadruple
`(output line, sourceIndex, sourceLine, sourceColumn)` of absolute running
totals after that segment.  `traceSegs` mirrors `processSegments`. -/
def traceSegs : BuildState → List (List Char) →
    Option (BuildState × List (Int × Int × Int × Int))
  | st, [] => some (st, [])
  | st, s :: rest =>
    match processSegment st s with
    | none => none
    | some st2 =>
      (traceSegs st2 rest).map fun p =>
        (p.1, (st.line, st2.sourceIndex, st2.sourceLine, st2.sourceColumn) :: p.2)

/-- One row of the instrumented builder, mirroring `processRow`. -/
def traceRow (st : BuildState) (row : List Char) :
    Option (BuildState × List (Int × Int × Int × Int)) :=
  if row.length > 0 then
    (traceSegs st (splitOnChar ',' row)).map fun p =>
      ({ p.1 with line := p.1.line + 1 }, p.2)
  else some ({ st with line := st.line + 1 }, [])

/-- All rows of the instrumented builder, mirroring `buildRows`. -/
def traceRows : BuildState → List (List Char) →
    Option (BuildState × List (Int × Int × Int × Int))
  | st, [] => some (st, [])
  | st, r :: rs =>
    match traceRow st r with
    | none => none
    | some (st2, tr) => (traceRows st2 rs).map fun p => (p.1, tr ++ p.2)

/-- The instrumented `build`: the final state together with the trace of all
decoded segments. -/
def buildTrace (mappings : List Char) :
    Option (BuildState × List (Int × Int × Int × Int)) :=
  traceRows initBuildState (splitOnChar ';' mappings)

/-- The `SourceLineMapping` recorded by a trace entry. -/
def entrySLM (e : Int × Int × Int × Int) : SourceLineMapping :=
  ⟨e.2.1, e.2.2.1, e.2.2.2⟩

/-- The abstract candidate step: what one decoded segment does to the stored
mapping of its output line. -/
def candUpd (cur : Option SourceLineMapping) (v : SourceLineMapping) :
    Option SourceLineMapping :=
  match cur with
  | none => some v
  | some m => if slmLt v m then some v else some m

/-- The candidates a trace contributes to output line `k`. -/
def filterLine (k : Int) (tr : List (Int × Int × Int × Int)) :
    List SourceLineMapping :=
  tr.filterMap fun e => if e.1 = k then some (entrySLM e) else none

/-- The parse of a `.map` file (`JSON.parse(fileData)` in `buildMap`): the
two fields the code reads, each possibly absent. -/
structure MapFile where
  mappings : Option (List Char)
  sources : Option (List String)
deriving DecidableEq

/-- A built `SourceMap` object as cached: the per-line mappings and the
`sources` list attached by `buildMap` (line 330). -/
structure SMap where
  lineMappings : List (Int × SourceLineMapping)
  sources : List String
deriving DecidableEq

/-- The possible outcomes of `buildMap`: the `false` sentinel, a propagating
exception, or the built map together with the `tsFileLines` index. -/
inductive BuildMapResult where
  | noMap : BuildMapResult
  | thrown : BuildMapResult
  | built : SMap → List (Int × Int) → BuildMapResult
deriving DecidableEq

/-- `buildMap` of SourceMap.ts (lines 318-332).  The filesystem is modelled
as a partial map from path to parsed map file; the returned `Nat` counts the
filesystem accesses performed (`fs.existsSync` and `fs.readFileSync`).
`mapData.mappings` is falsy when absent or the empty string; an empty
`sources` array is truthy in JavaScript and passes the check. -/
def buildMap (fs : String → Option MapFile) (mapFilePath : String) :
    BuildMapResult × Nat :=
  match fs mapFilePath with
  | none => (.noMap, 1)
  | some mf =>
    match mf.mappings, mf.sources with
    | some ms, some srcs =>
      if ms.isEmpty then (.noMap, 2)
      else
        match build ms with
        | none => (.thrown, 2)
        | some st => (.built ⟨st.lineMappings, srcs⟩ st.tsFileLines, 2)
    | _, _ => (.noMap, 2)

/-- Association-list lookup, modelling both indexing a JavaScript object by
property (`cache[file]`, absent = `undefined`) and `Map.get`. -/
def assocGet {α : Type} : List (String × α) → String → Option α
  | [], _ => none
  | (a, b) :: r, k => if a = k then some b else assocGet r k

/-- Association-list write, modelling `cache[file] = v` and `Map.set`. -/
def assocSet {α : Type} : List (String × α) → String → α → List (String × α)
  | [], k, v => [(k, v)]
  | (a, b) :: r, k, v => if a = k then (a, v) :: r else (a, b) :: assocSet r k v

/-- The module-level mutable state of the `SourceMap` namespace: `cache`
(per lua path: absent = `undefined`, `some none` = the `false` sentinel,
`some (some sm)` = a built map) and `tsVerifiedLines` (per ts path). -/
structure SMState where
  cache : List (String × Option SMap)
  tsVerifiedLines : List (String × List (Int × Int))
deriving DecidableEq

/-- The initial (empty) module state. -/
def initSMState : SMState := ⟨[], []⟩

/-- `getTSFileLine` (lines 388-399): empty index gives both fields
`undefined`; otherwise `lower_bound`, falling back to the last entry when
the iterator is `end()`. -/
def getTSFileLine (l : List (Int × Int)) (inputLine : Int) : Option Int × Option Int :=
  if l.isEmpty then (none, none)
  else
    match lowerBound l inputLine with
    | some (a, b) => (some a, some b)
    | none =>
      match l.getLast? with
      | some (a, b) => (some a, some b)
      | none => (none, none)

/-- The outcome of `verifyBreakpoint`: the returned record, or a
propagating exception. -/
inductive VBOut where
  | ok : Option Int → Option Int → VBOut
  | thrown : VBOut
deriving DecidableEq

/-- `verifyBreakpoint` of SourceMap.ts (lines 360-400), returning the
outcome, the module state after the call, and the number of filesystem
accesses performed. -/
def verifyBreakpoint (fs : String → Option MapFile) (st : SMState)
    (tsFileName : String) (line : Int) (luaPath : Option String) :
    VBOut × SMState × Nat :=
  match luaPath with
  | none => (.ok none none, st, 0)
  | some p =>
    if tsFileName = p then (.ok none (some line), st, 0)
    else
      match assocGet st.tsVerifiedLines tsFileName with
      | some info =>
        let r := getTSFileLine info line
        (.ok r.1 r.2, st, 0)
      | none =>
        match buildMap fs (p ++ ".map") with
        | (.noMap, n) => (.ok none none, st, n)
        | (.thrown, n) => (.thrown, st, n)
        | (.built sm tsl, n) =>
          let st2 : SMState :=
            ⟨assocSet st.cache p (some sm), assocSet st.tsVerifiedLines tsFileName tsl⟩
          let r := getTSFileLine tsl line
          (.ok r.1 r.2, st2, n)

/-- The outcome of `getTSMap`: the returned record, or a propagating
exception. -/
inductive GTOut where
  | ok : String → Int → Int → GTOut
  | thrown : GTOut
deriving DecidableEq

/-- Modelled from the spec: Node's `path.dirname` (the `path` module is
external to the repository) — the directory part of a path. -/
def dirnameStr (s : String) : String :=
  String.mk ((s.toList.reverse.dropWhile (· ≠ '/')).drop 1).reverse

/-- JavaScript `sources[i]`: out-of-range indexing yields `undefined`, which
string concatenation renders as `"undefined"`. -/
def sourcesLookup (srcs : List String) (i : Int) : String :=
  if 0 ≤ i ∧ i < (srcs.length : Int) then srcs.getD i.toNat "" else "undefined"

/-- Modelled from the spec: `toTSFileAbsPath` (lines 428-432) resolves the
map's relative source entry against the directory of the lua file
(`path.resolve` is external to the repository; normalization is omitted). -/
def toTSFileAbsPath (luaFilePath rel : String) : String :=
  dirnameStr luaFilePath ++ "/" ++ rel

/-- The use of a cached `sourceMap` value in `getTSMap` (lines 417-426 and
434-435): the `false` sentinel or an unmapped line degrade to the lua
position with column 0. -/
def gtUse (luaFilePath : String) (luaLine : Int) : Option SMap → GTOut
  | none => .ok luaFilePath luaLine 0
  | some sm =>
    match lmGet sm.lineMappings luaLine with
    | some lm =>
      .ok (toTSFileAbsPath luaFilePath (sourcesLookup sm.sources lm.sourceIndex))
        lm.sourceLine lm.sourceColumn
    | none => .ok luaFilePath luaLine 0

/-- `getTSMap` of SourceMap.ts (lines 407-436): only a strictly-`undefined`
cache slot triggers `buildMap`; the result (`false` on failure) is stored in
the cache. -/
def getTSMap (fs : String → Option MapFile) (st : SMState)
    (luaFilePath : String) (luaLine : Int) : GTOut × SMState × Nat :=
  match assocGet st.cache luaFilePath with
  | some cached => (gtUse luaFilePath luaLine cached, st, 0)
  | none =>
    match buildMap fs (luaFilePath ++ ".map") with
    | (.thrown, n) => (.thrown, st, n)
    | (.noMap, n) =>
      let st2 : SMState := { st with cache := assocSet st.cache luaFilePath none }
      (.ok luaFilePath luaLine 0, st2, n)
    | (.built sm _, n) =>
      let st2 : SMState := { st with cache := assocSet st.cache luaFilePath (some sm) }
      (gtUse luaFilePath luaLine (some sm), st2, n)

/-- List-of-characters prefix test (JavaScript `String.startsWith`). -/
def isPrefixL : List Char → List Char → Bool
  | [], _ => true
  | _ :: _, [] => false
  | a :: as, b :: bs => a = b && isPrefixL as bs

/-- JavaScript `String.endsWith`. -/
def endsWithL (s suf : List Char) : Bool := isPrefixL suf.reverse s.reverse

/-- JavaScript `String.prototype.replace` with a plain string pattern:
replace the first (leftmost) occurrence only; the string is returned
unchanged when the pattern does not occur. -/
def replaceFirstL (pat rep : List Char) : List Char → List Char
  | [] => if isPrefixL pat [] then rep else []
  | c :: r =>
    if isPrefixL pat (c :: r) then rep ++ (c :: r).drop pat.length
    else c :: replaceFirstL pat rep r

/-- `verifyLuaFilePath` of SourceMap.ts (lines 338-352), parameterized by the
configured `Tools.tsRootPath` and `Tools.luaRootPath` (the `Tools`
configuration object is external to this file).  Returns the translated path
(`none` = `undefined`) and the number of `DebugLogger.showTips` diagnostic
calls made. -/
def verifyLuaFilePath (tsRootPath luaRootPath : List Char) (tsFileName : List Char) :
    Option (List Char) × Nat :=
  if endsWithL tsFileName ".ts".toList = false then (some tsFileName, 0)
  else if isPrefixL tsRootPath tsFileName = false then (none, 1)
  else
    let luaPath := replaceFirstL tsRootPath luaRootPath tsFileName
    (some (replaceFirstL ".ts".toList ".lua".toList luaPath), 0)

/-- The mappings string of the spec's first scenario. -/
def mappingsC1 : List Char := ";AAAA,gBAAkB;AAAV;AAEJ".toList

/-- A filesystem holding `a.lua.map` with the scenario mappings and
`sources = ["a.ts"]`. -/
def fsC1 : String → Option MapFile := fun p =>
  if p = "a.lua.map" then some ⟨some mappingsC1, some ["a.ts"]⟩ else none

/-- A filesystem whose `a.lua.map` has a mapping segment with a character
outside the VLQ alphabet. -/
def fsBadChar : String → Option MapFile := fun p =>
  if p = "a.lua.map" then some ⟨some "!".toList, some ["a.ts"]⟩ else none

/-- An empty filesystem (no map file exists). -/
def fsEmpty : String → Option MapFile := fun _ => none

/-- A filesystem whose `a.lua.map` declares one source but whose mappings
raise the running `sourceIndex` to 1. -/
def fsC9 : String → Option MapFile := fun p =>
  if p = "a.lua.map" then some ⟨some "ACAA".toList, some ["a.ts"]⟩ else none

/-- Keys strictly increase along the association list: this is the ordering
invariant of the tstl `TreeMap` model (unique keys, sorted by key). -/
def tmSorted (l : List (Int × Int)) : Prop :=
  l.Pairwise fun p q => p.1 < q.1

/-- The sign-flag rule exactly as the specification words it: the completed
value's least-significant bit is a sign flag; if set, the decoded integer is
`-(value >>> 1)`, a zero magnitude giving the minimum 32-bit signed integer;
if clear, the decoded integer is `value >>> 1`. -/
def signFlagDecode (v : Int) : Int :=
  if jsAnd1 v = 1 then
    (if jsShrU1 v = 0 then -2147483648 else -(jsShrU1 v))
  else jsShrU1 v

theorem lmGet_lmSet_same (l : List (Int × SourceLineMapping)) (k : Int)
    (v : SourceLineMapping) : lmGet (lmSet l k v) k = some v := by
  induction l with
  | nil => simp [lmSet, lmGet]
  | cons a r ih =>
    obtain ⟨ak, av⟩ := a
    by_cases h : ak = k
    · subst h; simp [lmSet, lmGet]
    · simp [lmSet, lmGet, h, ih]

theorem lmGet_lmSet_ne (l : List (Int × SourceLineMapping)) (k j : Int)
    (v : SourceLineMapping) (h : j ≠ k) : lmGet (lmSet l k v) j = lmGet l j := by
  induction l with
  | nil => simp [lmSet, lmGet, Ne.symm h]
  | cons a r ih =>
    obtain ⟨ak, av⟩ := a
    by_cases h1 : ak = k
    · subst h1
      have h2 : ¬ ak = j := fun hj => h (hj.symm)
      simp [lmSet, lmGet, h2]
    · by_cases h2 : ak = j
      · subst h2; simp [lmSet, lmGet, h1]
      · simp [lmSet, lmGet, h1, h2, ih]

theorem lmGet_lmCand_same (l : List (Int × SourceLineMapping)) (k : Int)
    (v : SourceLineMapping) : lmGet (lmCand l k v) k = candUpd (lmGet l k) v := by
  unfold lmCand candUpd
  cases h : lmGet l k with
  | none => simp [lmGet_lmSet_same]
  | some m =>
    by_cases hlt : slmLt v m <;> simp [hlt, lmGet_lmSet_same, h]

theorem lmGet_lmCand_ne (l : List (Int × SourceLineMapping)) (k j : Int)
    (v : SourceLineMapping) (h : j ≠ k) : lmGet (lmCand l k v) j = lmGet l j := by
  unfold lmCand
  cases lmGet l k with
  | none => simp [lmGet_lmSet_ne _ _ _ _ h]
  | some m =>
    by_cases hlt : slmLt v m <;> simp [hlt, lmGet_lmSet_ne _ _ _ _ h]

theorem processSegment_some {st st2 : BuildState} {seg : List Char}
    (h : processSegment st seg = some st2) :
    st2.line = st.line ∧
    st2.lineMappings =
      lmCand st.lineMappings st.line ⟨st2.sourceIndex, st2.sourceLine, st2.sourceColumn⟩ ∧
    st2.tsFileLines = tmInsert st2.sourceLine st.line st.tsFileLines := by
  unfold processSegment at h
  rw [Option.map_eq_some'] at h
  obtain ⟨o, _, h2⟩ := h
  subst h2
  exact ⟨rfl, rfl, rfl⟩

theorem traceSegs_fst (segs : List (List Char)) : ∀ st : BuildState,
    (traceSegs st segs).map Prod.fst = processSegments st segs := by
  induction segs with
  | nil => intro st; rfl
  | cons s rest ih =>
    intro st
    unfold traceSegs processSegments
    cases h : processSegment st s with
    | none => rfl
    | some st2 =>
      rw [Option.map_map]
      exact ih st2

theorem traceRow_fst (st : BuildState) (row : List Char) :
    (traceRow st row).map Prod.fst = processRow st row := by
  unfold traceRow processRow
  by_cases h : row.length > 0
  · simp only [h, if_pos]
    rw [Option.map_map, ← traceSegs_fst (splitOnChar ',' row) st, Option.map_map]
    rfl
  · simp only [h, if_neg, not_false_iff]
    rfl

theorem traceRows_fst (rows : List (List Char)) : ∀ st : BuildState,
    (traceRows st rows).map Prod.fst = buildRows st rows := by
  induction rows with
  | nil => intro st; rfl
  | cons r rs ih =>
    intro st
    unfold traceRows buildRows
    rw [← traceRow_fst st r]
    cases h : traceRow st r with
    | none => rfl
    | some p =>
      obtain ⟨st2, tr⟩ := p
      simp only [Option.map_some']
      rw [Option.map_map]
      exact ih st2

theorem build_buildTrace {m : List Char} {bs : BuildState} (h : build m = some bs) :
    ∃ tr, buildTrace m = some (bs, tr) := by
  have hf := traceRows_fst (splitOnChar ';' m) initBuildState
  unfold build at h
  unfold buildTrace
  rw [h] at hf
  cases htr : traceRows initBuildState (splitOnChar ';' m) with
  | none => rw [htr] at hf; simp at hf
  | some p =>
    obtain ⟨bs2, tr⟩ := p
    rw [htr] at hf
    simp only [Option.map_some', Option.some.injEq] at hf
    exact ⟨tr, by rw [hf]⟩

theorem filterLine_cons_same (k si sl sc : Int) (tr : List (Int × Int × Int × Int)) :
    filterLine k ((k, si, sl, sc) :: tr) = (⟨si, sl, sc⟩ : SourceLineMapping) :: filterLine k tr := by
  unfold filterLine entrySLM
  rw [List.filterMap_cons]
  simp

theorem filterLine_cons_ne (k : Int) (e : Int × Int × Int × Int)
    (tr : List (Int × Int × Int × Int)) (h : e.1 ≠ k) :
    filterLine k (e :: tr) = filterLine k tr := by
  unfold filterLine
  rw [List.filterMap_cons]
  simp [h]

theorem filterLine_append (k : Int) (t1 t2 : List (Int × Int × Int × Int)) :
    filterLine k (t1 ++ t2) = filterLine k t1 ++ filterLine k t2 := by
  unfold filterLine
  rw [List.filterMap_append]

theorem traceSegs_lm (segs : List (List Char)) : ∀ st stf tr,
    traceSegs st segs = some (stf, tr) → ∀ k,
    lmGet stf.lineMappings k =
      (filterLine k tr).foldl candUpd (lmGet st.lineMappings k) := by
  induction segs with
  | nil =>
    intro st stf tr h k
    unfold traceSegs at h
    simp only [Option.some.injEq, Prod.mk.injEq] at h
    rw [← h.1, ← h.2]
    rfl
  | cons s rest ih =>
    intro st stf tr h k
    unfold traceSegs at h
    cases hp : processSegment st s with
    | none => rw [hp] at h; cases h
    | some st2 =>
      rw [hp, Option.map_eq_some'] at h
      obtain ⟨p, hps, heq⟩ := h
      obtain ⟨q1, q2⟩ := Prod.mk.injEq .. ▸ heq
      subst q1
      subst q2
      obtain ⟨hline, hlm, -⟩ := processSegment_some hp
      by_cases hk : st.line = k
      · subst hk
        rw [filterLine_cons_same, List.foldl_cons]
        have hstep :
            candUpd (lmGet st.lineMappings st.line)
              (⟨st2.sourceIndex, st2.sourceLine, st2.sourceColumn⟩ : SourceLineMapping) =
            lmGet st2.lineMappings st.line := by
          rw [hlm, lmGet_lmCand_same]
        rw [hstep]
        exact ih st2 p.1 p.2 hps st.line
      · rw [filterLine_cons_ne _ _ _ hk]
        have hunch : lmGet st2.lineMappings k = lmGet st.lineMappings k := by
          rw [hlm]
          exact lmGet_lmCand_ne _ _ _ _ (fun h2 => hk h2.symm)
        rw [← hunch]
        exact ih st2 p.1 p.2 hps k

theorem traceRow_lm {st stf : BuildState} {row : List Char}
    {tr : List (Int × Int × Int × Int)} (h : traceRow st row = some (stf, tr)) :
    ∀ k, lmGet stf.lineMappings k =
      (filterLine k tr).foldl candUpd (lmGet st.lineMappings k) := by
  intro k
  unfold traceRow at h
  by_cases hl : row.length > 0
  · rw [if_pos hl, Option.map_eq_some'] at h
    obtain ⟨p, hps, heq⟩ := h
    obtain ⟨q1, q2⟩ := Prod.mk.injEq .. ▸ heq
    subst q2
    have : lmGet stf.lineMappings k = lmGet p.1.lineMappings k := by
      rw [← q1]
    rw [this]
    exact traceSegs_lm _ st p.1 p.2 (by rw [hps]) k
  · rw [if_neg hl] at h
    simp only [Option.some.injEq, Prod.mk.injEq] at h
    rw [← h.2, ← h.1]
    rfl

theorem traceRows_lm (rows : List (List Char)) : ∀ st stf tr,
    traceRows st rows = some (stf, tr) → ∀ k,
    lmGet stf.lineMappings k =
      (filterLine k tr).foldl candUpd (lmGet st.lineMappings k) := by
  induction rows with
  | nil =>
    intro st stf tr h k
    unfold traceRows at h
    simp only [Option.some.injEq, Prod.mk.injEq] at h
    rw [← h.1, ← h.2]
    rfl
  | cons r rs ih =>
    intro st stf tr h k
    unfold traceRows at h
    cases hr : traceRow st r with
    | none => rw [hr] at h; cases h
    | some p =>
      obtain ⟨st2, tr1⟩ := p
      rw [hr, Option.map_eq_some'] at h
      obtain ⟨q, hq, heq⟩ := h
      obtain ⟨q1, q2⟩ := Prod.mk.injEq .. ▸ heq
      subst q1
      subst q2
      rw [filterLine_append, List.foldl_append]
      rw [← traceRow_lm hr k]
      exact ih st2 q.1 q.2 (by rw [hq]) k

theorem slmLt_irrefl (a : SourceLineMapping) : ¬ slmLt a a := by
  unfold slmLt; omega

theorem slmLe_trans {a b c : SourceLineMapping} (h1 : ¬ slmLt b a) (h2 : ¬ slmLt c b) :
    ¬ slmLt c a := by
  unfold slmLt at *; omega

theorem slmLt_trans {a b c : SourceLineMapping} (h1 : slmLt a b) (h2 : slmLt b c) :
    slmLt a c := by
  unfold slmLt at *; omega

theorem fold_best (es : List SourceLineMapping) : ∀ cur mp,
    es.foldl candUpd cur = some mp →
    (mp ∈ es ∨ cur = some mp) ∧ (∀ e ∈ es, ¬ slmLt e mp) ∧
      (∀ m0, cur = some m0 → ¬ slmLt m0 mp) := by
  induction es with
  | nil =>
    intro cur mp h
    simp only [List.foldl_nil] at h
    refine ⟨Or.inr h, by simp, ?_⟩
    intro m0 hm
    rw [h] at hm
    cases hm
    exact slmLt_irrefl _
  | cons e rest ih =>
    intro cur mp h
    rw [List.foldl_cons] at h
    cases cur with
    | none =>
      have hce : candUpd none e = some e := rfl
      rw [hce] at h
      obtain ⟨hmem, hmin, hcur⟩ := ih (some e) mp h
      have he : ¬ slmLt e mp := hcur e rfl
      refine ⟨?_, ?_, ?_⟩
      · cases hmem with
        | inl h1 => exact Or.inl (List.mem_cons_of_mem _ h1)
        | inr h1 =>
          cases h1
          exact Or.inl (List.mem_cons_self _ _)
      · intro x hx
        rcases List.mem_cons.mp hx with h1 | h1
        · rw [h1]; exact he
        · exact hmin x h1
      · intro m0 hm0
        simp at hm0
    | some m0 =>
      by_cases hlt : slmLt e m0
      · have hce : candUpd (some m0) e = some e := by
          simp [candUpd, hlt]
        rw [hce] at h
        obtain ⟨hmem, hmin, hcur⟩ := ih (some e) mp h
        have he : ¬ slmLt e mp := hcur e rfl
        refine ⟨?_, ?_, ?_⟩
        · cases hmem with
          | inl h1 => exact Or.inl (List.mem_cons_of_mem _ h1)
          | inr h1 =>
            cases h1
            exact Or.inl (List.mem_cons_self _ _)
        · intro x hx
          rcases List.mem_cons.mp hx with h1 | h1
          · rw [h1]; exact he
          · exact hmin x h1
        · intro m1 hm1
          cases hm1
          intro hlt2
          exact he (slmLt_trans hlt hlt2)
      · have hce : candUpd (some m0) e = some m0 := by
          simp [candUpd, hlt]
        rw [hce] at h
        obtain ⟨hmem, hmin, hcur⟩ := ih (some m0) mp h
        have hm0 : ¬ slmLt m0 mp := hcur m0 rfl
        refine ⟨?_, ?_, ?_⟩
        · cases hmem with
          | inl h1 => exact Or.inl (List.mem_cons_of_mem _ h1)
          | inr h1 => exact Or.inr h1
        · intro x hx
          rcases List.mem_cons.mp hx with h1 | h1
          · rw [h1]; exact slmLe_trans hm0 hlt
          · exact hmin x h1
        · intro m1 hm1
          cases hm1
          exact hm0

theorem mem_filterLine {k : Int} {tr : List (Int × Int × Int × Int)}
    {v : SourceLineMapping} (h : v ∈ filterLine k tr) :
    (k, v.sourceIndex, v.sourceLine, v.sourceColumn) ∈ tr := by
  unfold filterLine at h
  rw [List.mem_filterMap] at h
  obtain ⟨e, he, heq⟩ := h
  obtain ⟨e1, e2, e3, e4⟩ := e
  by_cases h1 : e1 = k
  · subst h1
    rw [if_pos rfl] at heq
    cases heq
    exact he
  · rw [if_neg (by simpa using h1)] at heq
    cases heq

theorem filterLine_mem {k : Int} {tr : List (Int × Int × Int × Int)}
    {e : Int × Int × Int × Int} (he : e ∈ tr) (hk : e.1 = k) :
    entrySLM e ∈ filterLine k tr := by
  unfold filterLine
  rw [List.mem_filterMap]
  exact ⟨e, he, by rw [if_pos hk]⟩

theorem buildTrace_lm_min {m : List Char} {bs : BuildState}
    {tr : List (Int × Int × Int × Int)} (h : buildTrace m = some (bs, tr))
    {k : Int} {mp : SourceLineMapping} (hk : lmGet bs.lineMappings k = some mp) :
    (k, mp.sourceIndex, mp.sourceLine, mp.sourceColumn) ∈ tr ∧
      ∀ e ∈ tr, e.1 = k → ¬ slmLt (entrySLM e) mp := by
  have hlm := traceRows_lm _ _ _ _ h k
  rw [hk] at hlm
  have hfold := fold_best (filterLine k tr) (lmGet initBuildState.lineMappings k) mp hlm.symm
  obtain ⟨hmem, hmin, -⟩ := hfold
  have hmem2 : mp ∈ filterLine k tr := by
    cases hmem with
    | inl h1 => exact h1
    | inr h1 => cases h1
  refine ⟨mem_filterLine hmem2, ?_⟩
  intro e he hek
  exact hmin (entrySLM e) (filterLine_mem he hek)

theorem mem_tmInsert {k v : Int} : ∀ {l : List (Int × Int)} {x : Int × Int},
    x ∈ tmInsert k v l → x ∈ l ∨ x = (k, v) := by
  intro l
  induction l with
  | nil =>
    intro x hx
    unfold tmInsert at hx
    rcases List.mem_singleton.mp hx with h
    exact Or.inr h
  | cons a r ih =>
    obtain ⟨ak, av⟩ := a
    intro x hx
    unfold tmInsert at hx
    by_cases h1 : k < ak
    · rw [if_pos h1] at hx
      rcases List.mem_cons.mp hx with h2 | h2
      · exact Or.inr h2
      · exact Or.inl h2
    · rw [if_neg h1] at hx
      by_cases h2 : k = ak
      · rw [if_pos h2] at hx
        exact Or.inl hx
      · rw [if_neg h2] at hx
        rcases List.mem_cons.mp hx with h3 | h3
        · exact Or.inl (h3 ▸ List.mem_cons_self _ _)
        · rcases ih h3 with h4 | h4
          · exact Or.inl (List.mem_cons_of_mem _ h4)
          · exact Or.inr h4

theorem tmSorted_insert {k v : Int} : ∀ {l : List (Int × Int)},
    tmSorted l → tmSorted (tmInsert k v l) := by
  intro l
  induction l with
  | nil =>
    intro _
    unfold tmInsert tmSorted
    simp
  | cons a r ih =>
    obtain ⟨ak, av⟩ := a
    intro hs
    rw [tmSorted, List.pairwise_cons] at hs
    obtain ⟨hhead, htail⟩ := hs
    unfold tmInsert
    by_cases h1 : k < ak
    · rw [if_pos h1]
      rw [tmSorted, List.pairwise_cons]
      refine ⟨?_, ?_⟩
      · intro x hx
        rcases List.mem_cons.mp hx with h2 | h2
        · rw [h2]; exact h1
        · exact lt_trans h1 (hhead x h2)
      · rw [List.pairwise_cons]
        exact ⟨hhead, htail⟩
    · rw [if_neg h1]
      by_cases h2 : k = ak
      · rw [if_pos h2]
        rw [tmSorted, List.pairwise_cons]
        exact ⟨hhead, htail⟩
      · rw [if_neg h2]
        rw [tmSorted, List.pairwise_cons]
        refine ⟨?_, ih htail⟩
        intro x hx
        rcases mem_tmInsert hx with h3 | h3
        · exact hhead x h3
        · rw [h3]
          simp only []
          omega

theorem tmLookup_mem : ∀ {l : List (Int × Int)} {k w : Int},
    tmLookup l k = some w → (k, w) ∈ l := by
  intro l
  induction l with
  | nil => intro k w h; cases h
  | cons a r ih =>
    obtain ⟨ak, av⟩ := a
    intro k w h
    unfold tmLookup at h
    by_cases h1 : ak = k
    · rw [if_pos h1] at h
      cases h
      rw [h1]
      exact List.mem_cons_self _ _
    · rw [if_neg h1] at h
      exact List.mem_cons_of_mem _ (ih h)

theorem tmInsert_lookup_eq {k v : Int} : ∀ {l : List (Int × Int)} {w : Int},
    tmSorted l → tmLookup l k = some w → tmInsert k v l = l := by
  intro l
  induction l with
  | nil => intro w _ h; cases h
  | cons a r ih =>
    obtain ⟨ak, av⟩ := a
    intro w hs hl
    rw [tmSorted, List.pairwise_cons] at hs
    obtain ⟨hhead, htail⟩ := hs
    unfold tmLookup at hl
    unfold tmInsert
    by_cases h1 : ak = k
    · rw [if_neg (by omega), if_pos h1.symm]
    · rw [if_neg h1] at hl
      have hmem : (k, w) ∈ r := tmLookup_mem hl
      have hak : ak < k := hhead (k, w) hmem
      rw [if_neg (by omega), if_neg (by omega)]
      rw [ih htail hl]

theorem processSegment_tmSorted {st st2 : BuildState} {seg : List Char}
    (h : processSegment st seg = some st2) (hs : tmSorted st.tsFileLines) :
    tmSorted st2.tsFileLines := by
  rw [(processSegment_some h).2.2]
  exact tmSorted_insert hs

theorem processSegments_tmSorted {segs : List (List Char)} : ∀ {st st2 : BuildState},
    processSegments st segs = some st2 → tmSorted st.tsFileLines →
    tmSorted st2.tsFileLines := by
  induction segs with
  | nil =>
    intro st st2 h hs
    unfold processSegments at h
    cases h
    exact hs
  | cons s rest ih =>
    intro st st2 h hs
    unfold processSegments at h
    cases hp : processSegment st s with
    | none => rw [hp] at h; cases h
    | some stm =>
      rw [hp] at h
      exact ih h (processSegment_tmSorted hp hs)

theorem processRow_tmSorted {st st2 : BuildState} {row : List Char}
    (h : processRow st row = some st2) (hs : tmSorted st.tsFileLines) :
    tmSorted st2.tsFileLines := by
  unfold processRow at h
  by_cases hl : row.length > 0
  · rw [if_pos hl, Option.map_eq_some'] at h
    obtain ⟨stm, hm, heq⟩ := h
    have : st2.tsFileLines = stm.tsFileLines := by rw [← heq]
    rw [this]
    exact processSegments_tmSorted hm hs
  · rw [if_neg hl] at h
    simp only [Option.map_some', Option.some.injEq] at h
    rw [← h]
    exact hs

theorem buildRows_tmSorted {rows : List (List Char)} : ∀ {st st2 : BuildState},
    buildRows st rows = some st2 → tmSorted st.tsFileLines →
    tmSorted st2.tsFileLines := by
  induction rows with
  | nil =>
    intro st st2 h hs
    unfold buildRows at h
    cases h
    exact hs
  | cons r rs ih =>
    intro st st2 h hs
    unfold buildRows at h
    cases hr : processRow st r with
    | none => rw [hr] at h; cases h
    | some stm =>
      rw [hr] at h
      exact ih h (processRow_tmSorted hr hs)

theorem build_tmSorted {m : List Char} {bs : BuildState} (h : build m = some bs) :
    tmSorted bs.tsFileLines := by
  unfold build at h
  exact buildRows_tmSorted h (by rw [tmSorted]; exact List.Pairwise.nil)

theorem lowerBound_some : ∀ {l : List (Int × Int)} {q : Int} {x : Int × Int},
    lowerBound l q = some x → x ∈ l ∧ q ≤ x.1 := by
  intro l
  induction l with
  | nil => intro q x h; cases h
  | cons a r ih =>
    obtain ⟨ak, av⟩ := a
    intro q x h
    unfold lowerBound at h
    by_cases h1 : q ≤ ak
    · rw [if_pos h1] at h
      cases h
      exact ⟨List.mem_cons_self _ _, h1⟩
    · rw [if_neg h1] at h
      obtain ⟨hmem, hle⟩ := ih h
      exact ⟨List.mem_cons_of_mem _ hmem, hle⟩

theorem lowerBound_min : ∀ {l : List (Int × Int)} {q : Int} {x : Int × Int},
    tmSorted l → lowerBound l q = some x → ∀ p ∈ l, q ≤ p.1 → x.1 ≤ p.1 := by
  intro l
  induction l with
  | nil => intro q x _ h; cases h
  | cons a r ih =>
    obtain ⟨ak, av⟩ := a
    intro q x hs h p hp hqp
    rw [tmSorted, List.pairwise_cons] at hs
    obtain ⟨hhead, htail⟩ := hs
    unfold lowerBound at h
    by_cases h1 : q ≤ ak
    · rw [if_pos h1] at h
      cases h
      rcases List.mem_cons.mp hp with h2 | h2
      · rw [h2]
      · exact le_of_lt (hhead p h2)
    · rw [if_neg h1] at h
      rcases List.mem_cons.mp hp with h2 | h2
      · rw [h2] at hqp; omega
      · exact ih htail h p h2 hqp

theorem lowerBound_none : ∀ {l : List (Int × Int)} {q : Int},
    lowerBound l q = none → ∀ p ∈ l, p.1 < q := by
  intro l
  induction l with
  | nil => intro q _ p hp; cases hp
  | cons a r ih =>
    obtain ⟨ak, av⟩ := a
    intro q h p hp
    unfold lowerBound at h
    by_cases h1 : q ≤ ak
    · rw [if_pos h1] at h; cases h
    · rw [if_neg h1] at h
      rcases List.mem_cons.mp hp with h2 | h2
      · rw [h2]; simp only []; omega
      · exact ih h p h2

theorem lastMem : ∀ {l : List (Int × Int)} {x : Int × Int},
    l.getLast? = some x → x ∈ l := by
  intro l
  induction l with
  | nil => intro x h; cases h
  | cons a r ih =>
    intro x h
    cases r with
    | nil =>
      rw [List.getLast?_singleton] at h
      cases h
      exact List.mem_cons_self _ _
    | cons b r2 =>
      rw [List.getLast?_cons_cons] at h
      exact List.mem_cons_of_mem _ (ih h)

theorem lastMax : ∀ {l : List (Int × Int)} {x : Int × Int},
    tmSorted l → l.getLast? = some x → ∀ p ∈ l, p.1 ≤ x.1 := by
  intro l
  induction l with
  | nil => intro x _ h; cases h
  | cons a r ih =>
    intro x hs h p hp
    rw [tmSorted, List.pairwise_cons] at hs
    obtain ⟨hhead, htail⟩ := hs
    cases r with
    | nil =>
      rw [List.getLast?_singleton] at h
      cases h
      rcases List.mem_cons.mp hp with h2 | h2
      · rw [h2]
      · cases h2
    | cons b r2 =>
      rw [List.getLast?_cons_cons] at h
      rcases List.mem_cons.mp hp with h2 | h2
      · rw [h2]
        exact le_of_lt (lt_of_lt_of_le (hhead x (lastMem h)) le_rfl)
      · exact ih htail h p h2

theorem lastIsSome : ∀ {l : List (Int × Int)}, l ≠ [] → ∃ x, l.getLast? = some x := by
  intro l h
  cases l with
  | nil => exact absurd rfl h
  | cons a r =>
    cases hx : (a :: r).getLast? with
    | none => rw [List.getLast?_eq_none_iff] at hx; cases hx
    | some x => exact ⟨x, rfl⟩

theorem decodeAux_bad (pre : List Char) : ∀ (shift : Nat) (value : Int)
    (c : Char) (post : List Char), charToInteger c = none →
    decodeAux (pre ++ c :: post) shift value = none := by
  induction pre with
  | nil =>
    intro shift value c post hc
    unfold decodeAux
    rw [List.nil_append]
    simp only [hc]
  | cons a pre2 ih =>
    intro shift value c post hc
    rw [List.cons_append]
    unfold decodeAux
    cases ha : charToInteger a with
    | none => rfl
    | some i =>
      simp only []
      by_cases h1 : i / 32 % 2 = 1
      · rw [if_pos h1]
        exact ih _ _ _ _ hc
      · rw [if_neg h1]
        rw [ih _ _ _ _ hc]
        rfl

theorem decode_bad {seg : List Char} {c : Char} (hm : c ∈ seg)
    (hc : charToInteger c = none) : decode seg = none := by
  obtain ⟨pre, post, heq⟩ := List.append_of_mem hm
  rw [heq]
  exact decodeAux_bad pre 0 0 c post hc

theorem assocGet_assocSet_same {α : Type} (l : List (String × α)) (k : String)
    (v : α) : assocGet (assocSet l k v) k = some v := by
  induction l with
  | nil => simp [assocSet, assocGet]
  | cons a r ih =>
    obtain ⟨ak, av⟩ := a
    by_cases h : ak = k
    · subst h; simp [assocSet, assocGet]
    · simp [assocSet, assocGet, h, ih]

theorem buildMap_pos (fs : String → Option MapFile) (p : String) :
    1 ≤ (buildMap fs p).2 := by
  unfold buildMap
  cases fs p with
  | none => simp
  | some mf =>
    obtain ⟨mm, msrc⟩ := mf
    cases mm with
    | none => cases msrc <;> simp
    | some ms =>
      cases msrc with
      | none => simp
      | some srcs =>
        simp only []
        by_cases h : ms.isEmpty
        · rw [if_pos h]; simp
        · rw [if_neg h]
          cases build ms <;> simp

theorem verifyBreakpoint_thrown {fs : String → Option MapFile} {st : SMState}
    {ts p : String} {line : Int} {n : Nat}
    (hcache : assocGet st.tsVerifiedLines ts = none) (hne : ts ≠ p)
    (hbm : buildMap fs (p ++ ".map") = (.thrown, n)) :
    verifyBreakpoint fs st ts line (some p) = (.thrown, st, n) := by
  unfold verifyBreakpoint
  simp only [hcache, hbm, if_neg hne]

theorem verifyBreakpoint_noMap {fs : String → Option MapFile} {st : SMState}
    {ts p : String} {line : Int} {n : Nat}
    (hcache : assocGet st.tsVerifiedLines ts = none) (hne : ts ≠ p)
    (hbm : buildMap fs (p ++ ".map") = (.noMap, n)) :
    verifyBreakpoint fs st ts line (some p) = (.ok none none, st, n) := by
  unfold verifyBreakpoint
  simp only [hcache, hbm, if_neg hne]

theorem getTSMap_thrown {fs : String → Option MapFile} {st : SMState}
    {p : String} {line : Int} {n : Nat}
    (hc : assocGet st.cache p = none)
    (hbm : buildMap fs (p ++ ".map") = (.thrown, n)) :
    getTSMap fs st p line = (.thrown, st, n) := by
  unfold getTSMap
  rw [hc, hbm]

theorem getTSMap_noMap {fs : String → Option MapFile} {st : SMState}
    {p : String} {line : Int} {n : Nat}
    (hc : assocGet st.cache p = none)
    (hbm : buildMap fs (p ++ ".map") = (.noMap, n)) :
    getTSMap fs st p line =
      (.ok p line 0, ⟨assocSet st.cache p none, st.tsVerifiedLines⟩, n) := by
  unfold getTSMap
  rw [hc, hbm]

theorem getTSMap_cached_noMap {fs : String → Option MapFile} {st : SMState}
    {p : String} {line : Int} (hc : assocGet st.cache p = some none) :
    getTSMap fs st p line = (.ok p line 0, st, 0) := by
  unfold getTSMap
  rw [hc]
  rfl

theorem isPrefixL_self (l : List Char) : isPrefixL l l = true := by
  induction l with
  | nil => rfl
  | cons a as ih => simp [isPrefixL, ih]

theorem replaceFirstL_at_start {pat s : List Char} (rep : List Char)
    (h : isPrefixL pat s = true) :
    replaceFirstL pat rep s = rep ++ s.drop pat.length := by
  cases s with
  | nil =>
    cases pat with
    | nil => simp [replaceFirstL, isPrefixL]
    | cons a as => simp [isPrefixL] at h
  | cons c r =>
    unfold replaceFirstL
    rw [if_pos h]

theorem replaceFirstL_at_end (pat rep : List Char) : ∀ s : List Char,
    (∀ i, i < s.length → isPrefixL pat ((s ++ pat).drop i) = false) →
    replaceFirstL pat rep (s ++ pat) = s ++ rep := by
  intro s
  induction s with
  | nil =>
    intro _
    rw [List.nil_append, List.nil_append]
    rw [replaceFirstL_at_start rep (isPrefixL_self pat)]
    rw [List.drop_length, List.append_nil]
  | cons c r ih =>
    intro hno
    have h0 := hno 0 (by simp)
    rw [List.drop_zero] at h0
    rw [List.cons_append] at h0 ⊢
    unfold replaceFirstL
    rw [if_neg (by rw [h0]; exact Bool.false_ne_true)]
    rw [List.cons_append]
    congr 1
    apply ih
    intro i hi
    have h2 := hno (i + 1) (by simp only [List.length_cons]; omega)
    rw [List.cons_append, List.drop_succ_cons] at h2
    exact h2

theorem finalizeValue_eq_signFlagDecode (v : Int) :
    finalizeValue v = signFlagDecode v := by
  unfold finalizeValue signFlagDecode
  have h : jsAnd1 v = 0 ∨ jsAnd1 v = 1 := by
    unfold jsAnd1 toUint32; omega
  rcases h with h | h <;> simp [h]

theorem verifyLuaFilePath_pass {root out input : List Char}
    (h : endsWithL input ".ts".toList = false) :
    verifyLuaFilePath root out input = (some input, 0) := by
  unfold verifyLuaFilePath
  rw [if_pos h]

theorem verifyLuaFilePath_outside {root out input : List Char}
    (h : endsWithL input ".ts".toList = true)
    (h2 : isPrefixL root input = false) :
    verifyLuaFilePath root out input = (none, 1) := by
  unfold verifyLuaFilePath
  rw [if_neg (by rw [h]; simp), if_pos h2]

theorem verifyLuaFilePath_translate {root out input : List Char}
    (h : endsWithL input ".ts".toList = true)
    (h2 : isPrefixL root input = true) :
    verifyLuaFilePath root out input =
      (some (replaceFirstL ".ts".toList ".lua".toList (out ++ input.drop root.length)), 0) := by
  unfold verifyLuaFilePath
  rw [if_neg (by rw [h]; simp),
    if_neg (by rw [h2]; simp)]
  rw [replaceFirstL_at_start _ h2]

/-- C1: for the mapping string ";AAAA,gBAAkB;AAAV;AAEJ" with
sources = ["a.ts"], the builder produces an original-line index mapping
source line 1 to output line 2, and verifyBreakpoint("a.ts", 1, "a.lua")
over a map file with that content returns tsLine 1 and luaLine 2. -/
theorem claim_C1 :
    ((build mappingsC1).map fun bs => tmLookup bs.tsFileLines 1) = some (some 2) ∧
    (verifyBreakpoint fsC1 initSMState "a.ts" 1 (some "a.lua")).1 =
      VBOut.ok (some 1) (some 2) := by
  decide

/-- C2 (counterexample): with a map file whose mappings string contains the
out-of-alphabet character '!', both verifyBreakpoint and getTSMap end in the
thrown outcome — the exception escapes to the host — and no negative result
is cached (the module state is unchanged), contrary to the claim that the
failure is treated like a missing map file and a typed unavailable result is
returned. -/
theorem claim_C2_counterexample :
    (verifyBreakpoint fsBadChar initSMState "a.ts" 1 (some "a.lua")).1 =
      VBOut.thrown ∧
    (getTSMap fsBadChar initSMState "a.lua" 1).1 = GTOut.thrown ∧
    (verifyBreakpoint fsBadChar initSMState "a.ts" 1 (some "a.lua")).2.1 =
      initSMState ∧
    (getTSMap fsBadChar initSMState "a.lua" 1).2.1 = initSMState := by
  decide

/-- C2 (amended): a mapping segment containing a character outside the
65-symbol alphabet makes that decode call fail fatally, and the failure
propagates uncaught through build and buildMap out of verifyBreakpoint and
getTSMap; nothing is cached on that path (the state is returned unchanged),
unlike the missing-map-file case. -/
theorem claim_C2_amended :
    (∀ (seg : List Char) (c : Char), c ∈ seg → charToInteger c = none →
      decode seg = none) ∧
    (∀ (fs : String → Option MapFile) (p : String) (mf : MapFile)
      (ms : List Char) (srcs : List String), fs p = some mf →
      mf.mappings = some ms → mf.sources = some srcs → ms ≠ [] →
      build ms = none → buildMap fs p = (.thrown, 2)) ∧
    (∀ (fs : String → Option MapFile) (st : SMState) (ts p : String)
      (line : Int) (n : Nat), assocGet st.tsVerifiedLines ts = none → ts ≠ p →
      buildMap fs (p ++ ".map") = (.thrown, n) →
      verifyBreakpoint fs st ts line (some p) = (.thrown, st, n)) ∧
    (∀ (fs : String → Option MapFile) (st : SMState) (p : String)
      (line : Int) (n : Nat), assocGet st.cache p = none →
      buildMap fs (p ++ ".map") = (.thrown, n) →
      getTSMap fs st p line = (.thrown, st, n)) := by
  refine ⟨fun seg c hm hc => decode_bad hm hc, ?_,
    fun fs st ts p line n h1 h2 h3 => verifyBreakpoint_thrown h1 h2 h3,
    fun fs st p line n h1 h2 => getTSMap_thrown h1 h2⟩
  intro fs p mf ms srcs hfs hmm hms hne hbuild
  obtain ⟨mm, msrc⟩ := mf
  simp only [] at hmm hms
  subst hmm
  subst hms
  unfold buildMap
  rw [hfs]
  simp only []
  rw [if_neg (fun h => hne (List.isEmpty_iff.mp h)), hbuild]

/-- C2 witness: the amended claim applied at a concrete bad map file. -/
theorem claim_C2_amended_witness :
    decode "!".toList = none ∧
    buildMap fsBadChar "a.lua.map" = (.thrown, 2) ∧
    verifyBreakpoint fsBadChar initSMState "a.ts" 1 (some "a.lua") =
      (.thrown, initSMState, 2) ∧
    getTSMap fsBadChar initSMState "a.lua" 1 = (.thrown, initSMState, 2) :=
  ⟨claim_C2_amended.1 "!".toList '!' (by decide) (by decide),
   claim_C2_amended.2.1 fsBadChar "a.lua.map" ⟨some "!".toList, some ["a.ts"]⟩
     "!".toList ["a.ts"] (by decide) rfl rfl (by decide) (by decide),
   claim_C2_amended.2.2.1 fsBadChar initSMState "a.ts" "a.lua" 1 2 (by decide)
     (by decide) (by decide),
   claim_C2_amended.2.2.2 fsBadChar initSMState "a.lua" 1 2 (by decide) (by decide)⟩

/-- C3 (counterexample): in build("AAAA;AAAA") both rows insert source line 1
(first as 1 → 1, then as 1 → 2); the index keeps the earlier entry 1 → 1,
not the claimed overwriting later entry 1 → 2. -/
theorem claim_C3_counterexample :
    ((build "AAAA;AAAA".toList).map fun bs => tmLookup bs.tsFileLines 1) =
      some (some 1) ∧
    ((build "AAAA;AAAA".toList).map fun bs => tmLookup bs.tsFileLines 1) ≠
      some (some 2) := by
  decide

/-- C3 (amended): in the original-line index produced by build, keys are
unique and ordered by line number (keys strictly increase along the index);
when two decoded segments yield the same source-line key, the earlier
insertion is kept and the later insert is a no-op (tstl TreeMap.insert has
C++ std::map::insert semantics); the index supports lower-bound queries
(lowerBound returns an entry of the index whose key is the smallest key
≥ the query, and fails only when every key is smaller). -/
theorem claim_C3_amended (m : List Char) (bs : BuildState)
    (hb : build m = some bs) :
    tmSorted bs.tsFileLines ∧
    (∀ (k v w : Int) (l : List (Int × Int)), tmSorted l →
      tmLookup l k = some w → tmInsert k v l = l) ∧
    (∀ (q : Int) (x : Int × Int), lowerBound bs.tsFileLines q = some x →
      x ∈ bs.tsFileLines ∧ q ≤ x.1 ∧
        ∀ p ∈ bs.tsFileLines, q ≤ p.1 → x.1 ≤ p.1) ∧
    (∀ q : Int, lowerBound bs.tsFileLines q = none →
      ∀ p ∈ bs.tsFileLines, p.1 < q) := by
  have hs := build_tmSorted hb
  refine ⟨hs, fun k v w l hsl hlk => tmInsert_lookup_eq hsl hlk, ?_,
    fun q hq => lowerBound_none hq⟩
  intro q x hlb
  obtain ⟨hmem, hle⟩ := lowerBound_some hlb
  exact ⟨hmem, hle, lowerBound_min hs hlb⟩

/-- C3 witness: the amended claim applied at build("AAAA;AAAA"). -/
theorem claim_C3_amended_witness :
    tmSorted (⟨3, 0, 1, 1, [(1, ⟨0, 1, 1⟩), (2, ⟨0, 1, 1⟩)],
        [(1, 1)]⟩ : BuildState).tsFileLines ∧
    tmInsert 1 99 [(1, 1)] = [(1, 1)] :=
  ⟨(claim_C3_amended "AAAA;AAAA".toList _ (by decide)).1,
   (claim_C3_amended "AAAA;AAAA".toList
       ⟨3, 0, 1, 1, [(1, ⟨0, 1, 1⟩), (2, ⟨0, 1, 1⟩)], [(1, 1)]⟩ (by decide)).2.1
     1 99 1 [(1, 1)]
     (claim_C3_amended "AAAA;AAAA".toList
       ⟨3, 0, 1, 1, [(1, ⟨0, 1, 1⟩), (2, ⟨0, 1, 1⟩)], [(1, 1)]⟩ (by decide)).1
     (by decide)⟩

/-- C4: for a non-empty original-line index produced by build,
getTSFileLine returns an entry of the index whose key is either the smallest
indexed line ≥ the requested line or, when no such line exists, the largest
indexed line; it never returns an unindexed line, and for the empty index it
returns both fields undefined. -/
theorem claim_C4 (m : List Char) (bs : BuildState) (hb : build m = some bs)
    (q : Int) :
    (bs.tsFileLines ≠ [] → ∃ a b : Int,
      getTSFileLine bs.tsFileLines q = (some a, some b) ∧
      (a, b) ∈ bs.tsFileLines ∧
      ((q ≤ a ∧ ∀ p ∈ bs.tsFileLines, q ≤ p.1 → a ≤ p.1) ∨
       ((∀ p ∈ bs.tsFileLines, p.1 < q) ∧ ∀ p ∈ bs.tsFileLines, p.1 ≤ a))) ∧
    getTSFileLine [] q = (none, none) := by
  constructor
  · intro hne
    have hs := build_tmSorted hb
    unfold getTSFileLine
    rw [if_neg (fun h => hne (List.isEmpty_iff.mp h))]
    cases hlb : lowerBound bs.tsFileLines q with
    | some x =>
      obtain ⟨a, b⟩ := x
      refine ⟨a, b, rfl, (lowerBound_some hlb).1, Or.inl ?_⟩
      exact ⟨(lowerBound_some hlb).2, lowerBound_min hs hlb⟩
    | none =>
      obtain ⟨x, hx⟩ := lastIsSome hne
      rw [hx]
      obtain ⟨a, b⟩ := x
      exact ⟨a, b, rfl, lastMem hx,
        Or.inr ⟨lowerBound_none hlb, lastMax hs hx⟩⟩
  · rfl

/-- C4 witness: the claim applied at build("AAAA;AAEA") and requested line 5,
which is past the last indexed line and snaps back to (3, 2). -/
theorem claim_C4_witness :
    ((⟨3, 0, 3, 1, [(1, ⟨0, 1, 1⟩), (2, ⟨0, 3, 1⟩)],
        [(1, 1), (3, 2)]⟩ : BuildState).tsFileLines ≠ [] → ∃ a b : Int,
      getTSFileLine (⟨3, 0, 3, 1, [(1, ⟨0, 1, 1⟩), (2, ⟨0, 3, 1⟩)],
        [(1, 1), (3, 2)]⟩ : BuildState).tsFileLines 5 = (some a, some b) ∧
      (a, b) ∈ (⟨3, 0, 3, 1, [(1, ⟨0, 1, 1⟩), (2, ⟨0, 3, 1⟩)],
        [(1, 1), (3, 2)]⟩ : BuildState).tsFileLines ∧
      ((5 ≤ a ∧ ∀ p ∈ (⟨3, 0, 3, 1, [(1, ⟨0, 1, 1⟩), (2, ⟨0, 3, 1⟩)],
          [(1, 1), (3, 2)]⟩ : BuildState).tsFileLines, 5 ≤ p.1 → a ≤ p.1) ∨
       ((∀ p ∈ (⟨3, 0, 3, 1, [(1, ⟨0, 1, 1⟩), (2, ⟨0, 3, 1⟩)],
          [(1, 1), (3, 2)]⟩ : BuildState).tsFileLines, p.1 < 5) ∧
        ∀ p ∈ (⟨3, 0, 3, 1, [(1, ⟨0, 1, 1⟩), (2, ⟨0, 3, 1⟩)],
          [(1, 1), (3, 2)]⟩ : BuildState).tsFileLines, p.1 ≤ a))) ∧
    getTSFileLine [] 5 = (none, none) :=
  claim_C4 "AAAA;AAEA".toList _ (by decide) 5

/-- C5 (counterexample): with no map file on disk, a failed
verifyBreakpoint lookup leaves the module state completely unchanged — the
negative result is not cached — so the identical second lookup performs the
same single filesystem probe (1 ≠ 0 accesses), contrary to the claim that
both lookup operations cache negative results. -/
theorem claim_C5_counterexample :
    verifyBreakpoint fsEmpty initSMState "a.ts" 1 (some "a.lua") =
      (.ok none none, initSMState, 1) ∧
    (verifyBreakpoint fsEmpty initSMState "a.ts" 1 (some "a.lua")).2.2 ≠ 0 := by
  decide

/-- C5 (amended): negative caching holds for getTSMap — after one failed
lookup the false sentinel is cached and a second lookup for the same path
performs no filesystem access and returns the same negative result — but not
for verifyBreakpoint, which caches nothing on failure (state unchanged), so
every repeated failed lookup performs at least one filesystem access
again. -/
theorem claim_C5_amended :
    (∀ (fs : String → Option MapFile) (st : SMState) (p : String)
      (line : Int) (n : Nat), assocGet st.cache p = none →
      buildMap fs (p ++ ".map") = (.noMap, n) →
      getTSMap fs st p line =
        (.ok p line 0, ⟨assocSet st.cache p none, st.tsVerifiedLines⟩, n) ∧
      getTSMap fs ⟨assocSet st.cache p none, st.tsVerifiedLines⟩ p line =
        (.ok p line 0, ⟨assocSet st.cache p none, st.tsVerifiedLines⟩, 0)) ∧
    (∀ (fs : String → Option MapFile) (st : SMState) (ts p : String)
      (line : Int) (n : Nat), assocGet st.tsVerifiedLines ts = none →
      ts ≠ p → buildMap fs (p ++ ".map") = (.noMap, n) →
      verifyBreakpoint fs st ts line (some p) = (.ok none none, st, n) ∧
        1 ≤ n) := by
  constructor
  · intro fs st p line n hc hbm
    exact ⟨getTSMap_noMap hc hbm,
      getTSMap_cached_noMap (assocGet_assocSet_same _ _ _)⟩
  · intro fs st ts p line n hc hne hbm
    refine ⟨verifyBreakpoint_noMap hc hne hbm, ?_⟩
    have hp := buildMap_pos fs (p ++ ".map")
    rw [hbm] at hp
    exact hp

/-- C5 witness: the amended claim applied at the empty filesystem. -/
theorem claim_C5_amended_witness :
    (getTSMap fsEmpty initSMState "a.lua" 1 =
        (.ok "a.lua" 1 0,
          ⟨assocSet initSMState.cache "a.lua" none,
            initSMState.tsVerifiedLines⟩, 1) ∧
      getTSMap fsEmpty
          ⟨assocSet initSMState.cache "a.lua" none,
            initSMState.tsVerifiedLines⟩ "a.lua" 1 =
        (.ok "a.lua" 1 0,
          ⟨assocSet initSMState.cache "a.lua" none,
            initSMState.tsVerifiedLines⟩, 0)) ∧
    (verifyBreakpoint fsEmpty initSMState "a.ts" 1 (some "a.lua") =
        (.ok none none, initSMState, 1) ∧ 1 ≤ 1) :=
  ⟨claim_C5_amended.1 fsEmpty initSMState "a.lua" 1 1 (by decide) (by decide),
   claim_C5_amended.2 fsEmpty initSMState "a.ts" "a.lua" 1 1 (by decide)
     (by decide) (by decide)⟩

/-- C6 (counterexample): with roots original = "/proj/src" and
output = "/proj/lua", the input "/proj/src/a.ts.ts" ends in ".ts" and lies
under the root, but the code replaces the FIRST occurrence of ".ts" in the
translated path, yielding "/proj/lua/a.lua.ts" instead of the
extension-replacement "/proj/lua/a.ts.lua" the claim requires. -/
theorem claim_C6_counterexample :
    verifyLuaFilePath "/proj/src".toList "/proj/lua".toList
        "/proj/src/a.ts.ts".toList = (some "/proj/lua/a.lua.ts".toList, 0) ∧
    "/proj/lua/a.lua.ts".toList ≠ "/proj/lua/a.ts.lua".toList := by
  decide

/-- C6 (amended): verifyLuaFilePath returns a non-".ts" input unchanged with
no diagnostic; returns undefined plus one diagnostic for a ".ts" input not
under the configured root; and otherwise replaces the root prefix by the
output root and then the FIRST occurrence of ".ts" in the resulting string
by ".lua" — which is the extension exactly when ".ts" occurs nowhere
earlier in that string.  The spec's concrete scenario holds:
"/proj/src/a.ts" maps to "/proj/lua/a.lua", and "/other/a.ts" yields
undefined plus one diagnostic. -/
theorem claim_C6_amended :
    (∀ root out input : List Char, endsWithL input ".ts".toList = false →
      verifyLuaFilePath root out input = (some input, 0)) ∧
    (∀ root out input : List Char, endsWithL input ".ts".toList = true →
      isPrefixL root input = false →
      verifyLuaFilePath root out input = (none, 1)) ∧
    (∀ root out input : List Char, endsWithL input ".ts".toList = true →
      isPrefixL root input = true →
      verifyLuaFilePath root out input =
        (some (replaceFirstL ".ts".toList ".lua".toList
          (out ++ input.drop root.length)), 0)) ∧
    (∀ s : List Char, (∀ i, i < s.length →
        isPrefixL ".ts".toList ((s ++ ".ts".toList).drop i) = false) →
      replaceFirstL ".ts".toList ".lua".toList (s ++ ".ts".toList) =
        s ++ ".lua".toList) ∧
    verifyLuaFilePath "/proj/src".toList "/proj/lua".toList
      "/proj/src/a.ts".toList = (some "/proj/lua/a.lua".toList, 0) ∧
    verifyLuaFilePath "/proj/src".toList "/proj/lua".toList
      "/other/a.ts".toList = (none, 1) := by
  exact ⟨fun root out input h => verifyLuaFilePath_pass h,
    fun root out input h h2 => verifyLuaFilePath_outside h h2,
    fun root out input h h2 => verifyLuaFilePath_translate h h2,
    fun s hno => replaceFirstL_at_end _ _ s hno,
    by decide, by decide⟩

/-- C6 witness: the amended claim applied at concrete paths. -/
theorem claim_C6_amended_witness :
    verifyLuaFilePath "/proj/src".toList "/proj/lua".toList
      "/x/a.lua".toList = (some "/x/a.lua".toList, 0) ∧
    replaceFirstL ".ts".toList ".lua".toList
        ("/proj/lua/b".toList ++ ".ts".toList) =
      "/proj/lua/b".toList ++ ".lua".toList :=
  ⟨claim_C6_amended.1 "/proj/src".toList "/proj/lua".toList
     "/x/a.lua".toList (by decide),
   claim_C6_amended.2.2.2.1 "/proj/lua/b".toList (by decide)⟩

/-- C7: when decode meets a character whose continuation bit (bit 5) is
clear, it completes the accumulated value and appends exactly the integer
given by the sign-flag rule: least-significant bit set means
-(value >>> 1), with a zero magnitude giving -2147483648; clear means
value >>> 1 — then resets the accumulator and shift to zero for the rest of
the segment. -/
theorem claim_C7 (c : Char) (rest : List Char) (shift : Nat) (value : Int)
    (i : Nat) (hc : charToInteger c = some i) (hnc : i / 32 % 2 = 0) :
    decodeAux (c :: rest) shift value =
      (decodeAux rest 0 0).map
        (fun r => signFlagDecode (value + jsShl31 (i % 32) shift) :: r) := by
  conv_lhs => rw [decodeAux]
  rw [hc]
  simp only []
  rw [if_neg (by omega)]
  simp only [finalizeValue_eq_signFlagDecode]

/-- C7 witness: the claim applied at the single character 'B' (value 1,
continuation clear, sign bit set, zero magnitude), which decodes to the
minimum 32-bit signed integer. -/
theorem claim_C7_witness :
    decodeAux ['B'] 0 0 =
      (decodeAux [] 0 0).map
        (fun r => signFlagDecode (0 + jsShl31 (1 % 32) 0) :: r) ∧
    decodeAux ['B'] 0 0 = some [-2147483648] :=
  ⟨claim_C7 'B' [] 0 0 1 (by decide) (by decide), by decide⟩

/-- C8: for every built source map and every output line with a stored line
mapping, that mapping's (sourceLine, sourceColumn) is the lexicographically
smallest among all segments decoded for that output line (the stored
quadruple occurs in the instrumented trace and no trace entry for the line
is strictly smaller); moreover a segment replaces the stored mapping of its
line only when its position is strictly smaller. -/
theorem claim_C8 (m : List Char) (bs : BuildState) (hb : build m = some bs) :
    (∃ tr, buildTrace m = some (bs, tr) ∧
      ∀ (k : Int) (mp : SourceLineMapping),
        lmGet bs.lineMappings k = some mp →
        (k, mp.sourceIndex, mp.sourceLine, mp.sourceColumn) ∈ tr ∧
        ∀ e ∈ tr, e.1 = k → ¬ slmLt (entrySLM e) mp) ∧
    (∀ (st st2 : BuildState) (seg : List Char) (m0 : SourceLineMapping),
      processSegment st seg = some st2 →
      lmGet st.lineMappings st.line = some m0 →
      ¬ slmLt ⟨st2.sourceIndex, st2.sourceLine, st2.sourceColumn⟩ m0 →
      st2.lineMappings = st.lineMappings) := by
  constructor
  · obtain ⟨tr, htr⟩ := build_buildTrace hb
    exact ⟨tr, htr, fun k mp hk => buildTrace_lm_min htr hk⟩
  · intro st st2 seg m0 hps hget hnlt
    rw [(processSegment_some hps).2.1]
    unfold lmCand
    rw [hget]
    simp only []
    rw [if_neg hnlt]

/-- C8 witness: the claim applied at build("AAAA,gBAAkB"), whose output
line 1 receives the two candidates (1,1) and (1,19) and stores the
smaller (1,1). -/
theorem claim_C8_witness :
    (∃ tr, buildTrace "AAAA,gBAAkB".toList =
        some (⟨2, 0, 1, 19, [(1, ⟨0, 1, 1⟩)], [(1, 1)]⟩, tr) ∧
      ∀ (k : Int) (mp : SourceLineMapping),
        lmGet (⟨2, 0, 1, 19, [(1, ⟨0, 1, 1⟩)],
          [(1, 1)]⟩ : BuildState).lineMappings k = some mp →
        (k, mp.sourceIndex, mp.sourceLine, mp.sourceColumn) ∈ tr ∧
        ∀ e ∈ tr, e.1 = k → ¬ slmLt (entrySLM e) mp) ∧
    (∀ (st st2 : BuildState) (seg : List Char) (m0 : SourceLineMapping),
      processSegment st seg = some st2 →
      lmGet st.lineMappings st.line = some m0 →
      ¬ slmLt ⟨st2.sourceIndex, st2.sourceLine, st2.sourceColumn⟩ m0 →
      st2.lineMappings = st.lineMappings) :=
  claim_C8 "AAAA,gBAAkB".toList _ (by decide)

/-- C9 (counterexample): the map file "a.lua.map" with mappings "ACAA" and
sources = ["a.ts"] builds and caches a source map whose stored line mapping
has sourceIndex 1, which is NOT a valid index into the one-element sources
list — build performs no validation of the running sourceIndex. -/
theorem claim_C9_counterexample :
    (getTSMap fsC9 initSMState "a.lua" 1).2.1 =
      ⟨[("a.lua", some ⟨[(1, ⟨1, 1, 1⟩)], ["a.ts"]⟩)], []⟩ ∧
    lmGet [(1, (⟨1, 1, 1⟩ : SourceLineMapping))] 1 = some ⟨1, 1, 1⟩ ∧
    ¬ ((⟨1, 1, 1⟩ : SourceLineMapping).sourceIndex <
        ((["a.ts"] : List String).length : Int)) := by
  decide

/-- C9 (amended): sourceIndex validity is not checked by the code; it holds
exactly for maps whose mappings keep every running sourceIndex inside
[0, sources.length): under that hypothesis on the instrumented trace, every
stored line mapping's sourceIndex is a valid index into sources and the
sources lookup in getTSMap yields a declared source path. -/
theorem claim_C9_amended (m : List Char) (bs : BuildState)
    (tr : List (Int × Int × Int × Int)) (srcs : List String)
    (hb : buildTrace m = some (bs, tr))
    (hr : ∀ e ∈ tr, 0 ≤ e.2.1 ∧ e.2.1 < (srcs.length : Int)) :
    ∀ (k : Int) (mp : SourceLineMapping),
      lmGet bs.lineMappings k = some mp →
      0 ≤ mp.sourceIndex ∧ mp.sourceIndex < (srcs.length : Int) ∧
        (srcs.get? mp.sourceIndex.toNat).isSome := by
  intro k mp hk
  have hmem := (buildTrace_lm_min hb hk).1
  have hb2 : 0 ≤ mp.sourceIndex ∧ mp.sourceIndex < (srcs.length : Int) :=
    hr _ hmem
  refine ⟨hb2.1, hb2.2, ?_⟩
  cases hg : srcs.get? mp.sourceIndex.toNat with
  | some s => rfl
  | none =>
    rw [List.get?_eq_none] at hg
    have h1 := hb2.1
    have h2 := hb2.2
    omega

/-- C9 witness: the amended claim applied at mappings "ACAA" with a
two-element sources list, for which the running sourceIndex 1 is in
range. -/
theorem claim_C9_amended_witness :
    0 ≤ (⟨1, 1, 1⟩ : SourceLineMapping).sourceIndex ∧
    (⟨1, 1, 1⟩ : SourceLineMapping).sourceIndex <
      ((["a.ts", "b.ts"] : List String).length : Int) ∧
    ((["a.ts", "b.ts"] : List String).get?
      (⟨1, 1, 1⟩ : SourceLineMapping).sourceIndex.toNat).isSome :=
  claim_C9_amended "ACAA".toList ⟨2, 1, 1, 1, [(1, ⟨1, 1, 1⟩)], [(1, 1)]⟩
    [(1, 1, 1, 1)] ["a.ts", "b.ts"] (by decide) (by decide) 1 ⟨1, 1, 1⟩
    (by decide)

/-- C10: an empty column segment (from consecutive commas or a comma at a
group boundary) is not an error: decode("") returns the empty sequence, the
missing fields contribute delta 0 so the running totals are unchanged, and
the segment still performs the index insert of (sourceLine, line) and is
still considered as a candidate for the line's mapping; consequently
build("AAAA,,") equals build("AAAA"). -/
theorem claim_C10 :
    decode [] = some [] ∧
    (∀ st : BuildState, processSegment st [] = some
      { line := st.line, sourceIndex := st.sourceIndex,
        sourceLine := st.sourceLine, sourceColumn := st.sourceColumn,
        lineMappings := lmCand st.lineMappings st.line
          ⟨st.sourceIndex, st.sourceLine, st.sourceColumn⟩,
        tsFileLines := tmInsert st.sourceLine st.line st.tsFileLines }) ∧
    splitOnChar ',' "gBAAkB,,AAAV".toList =
      ["gBAAkB".toList, [], "AAAV".toList] ∧
    build "AAAA,,".toList = build "AAAA".toList := by
  refine ⟨rfl, ?_, by decide, by decide⟩
  intro st
  unfold processSegment
  simp [decode, decodeAux, List.getD]
